import Mathlib

/-!
# Verification of the `sudoku.py` backtracking solver

This file gives a shallow embedding, in Lean 4, of the Sudoku solver of
`src/main/sudoku.py` and proves (or refutes) the frozen claims about it.

Modelling conventions:

* Python `set` objects become `Finset`; `set.remove` is `pyRemove`, which
  fails with `PyErr.keyError` when the element is absent, exactly like the
  Python method.
* The five pieces of mutable state threaded through the Python functions
  (`row_chances`, `column_chances`, `box_chances`, `unsolved_fields`,
  `solution`) are bundled into one `Store` record and passed explicitly.
* Python lists indexed by `0..8` (the three chance-set families) and the
  81-cell `solution` list are modelled as total functions out of `ℕ`
  updated with `Function.update`; every index actually used by the program
  on inputs of length at most 81 is in range, so the total-function model
  agrees with Python list indexing on all runs considered in the theorems
  below (inputs longer than 81 characters with a given beyond cell 80
  would raise `IndexError` in Python and are outside the scope of every
  statement in this file).
* Exceptions become `Except PyErr`.  `PyErr.valueError` stands for Python
  `ValueError` (raised by `_verify_grid`, by `int(...)` on a non-digit
  character, and by `solve` for unsolvable puzzles), `PyErr.keyError` for
  `KeyError` (raised by `set.remove`), and `PyErr.typeError` for the
  `TypeError` raised when `_solve` unpacks a `None` returned by
  `_choose_next_unsolved`.
* The recursion of `_solve` is modelled with an explicit fuel parameter
  (`_solveF`); running out of fuel yields `none`, which is distinct from
  every Python behaviour.  `_solve` runs `_solveF` with fuel
  `unsolved_fields.card + 1`, and it is proved below that this amount of
  fuel is never exhausted, so `none` never actually occurs.
* Iteration order over Python sets is implementation defined; the
  embedding fixes the deterministic orders CPython produces for this
  program: digit sets `{1..9}` iterate in ascending numeric order
  (`Finset.sort`), and the scan of `unsolved_fields` visits cells in
  field-index order (`unsolvedList`).
-/

namespace SudokuPy

/-- Python exception kinds that the translated code can raise. -/
inductive PyErr where
  | valueError
  | keyError
  | typeError
  deriving DecidableEq, Repr

/-- A `(row, column, box)` triple, as stored in `unsolved_fields`. -/
abbrev Pos := ℕ × ℕ × ℕ

/-- Translation of `_positions`: map a field index `0..80` to its
`(row, column, box)` triple. -/
def _positions (field : ℕ) : Pos :=
  (field / 9, field % 9, field / 3 % 3 + 3 * (field / 9 / 3))

/-- Translation of Python `set.remove`: remove an element, raising
`KeyError` when it is absent. -/
def pyRemove {α : Type} [DecidableEq α] (s : Finset α) (x : α) :
    Except PyErr (Finset α) :=
  if x ∈ s then .ok (s.erase x) else .error .keyError

/-- The digit set `set([1, 2, 3, 4, 5, 6, 7, 8, 9])` used by `_all_chances`. -/
def allDigits : Finset ℕ := {1, 2, 3, 4, 5, 6, 7, 8, 9}

/-- The mutable state of the solver: the three chance-set families and the
unsolved set built in `solve` via `_all_chances` / `_all_unsolved`, plus the
`solution` list built in `_init_fields`. -/
@[ext]
structure Store where
  row_chances : ℕ → Finset ℕ
  column_chances : ℕ → Finset ℕ
  box_chances : ℕ → Finset ℕ
  unsolved_fields : Finset Pos
  solution : ℕ → ℕ

/-- Translation of `_all_unsolved`: the set of `_positions f` for `f` in
`range(81)`. -/
def _all_unsolved : Finset Pos := (Finset.range 81).image _positions

/-- The state right after `solve` has run `_all_chances` and `_all_unsolved`
and `_init_fields` has allocated `solution = [0] * 81`: every chance set is
`{1..9}`, every cell is unsolved, every solution entry is `0`. -/
def initialStore : Store where
  row_chances := fun _ => allDigits
  column_chances := fun _ => allDigits
  box_chances := fun _ => allDigits
  unsolved_fields := _all_unsolved
  solution := fun _ => 0

/-- Translation of `_set_field`: remove `digit` from the three chance sets,
remove `positions` from the unsolved set, write `digit` into the solution.
Each removal can raise `KeyError`; an error aborts the whole computation, so
collapsing the partially-mutated intermediate states into a single
all-or-nothing update is observationally faithful. -/
def _set_field (s : Store) (positionsArg : Pos) (digit : ℕ) :
    Except PyErr Store :=
  match pyRemove (s.row_chances positionsArg.1) digit with
  | .error e => .error e
  | .ok rc =>
    match pyRemove (s.column_chances positionsArg.2.1) digit with
    | .error e => .error e
    | .ok cc =>
      match pyRemove (s.box_chances positionsArg.2.2) digit with
      | .error e => .error e
      | .ok bc =>
        match pyRemove s.unsolved_fields positionsArg with
        | .error e => .error e
        | .ok uf =>
          .ok { row_chances := Function.update s.row_chances positionsArg.1 rc
                column_chances :=
                  Function.update s.column_chances positionsArg.2.1 cc
                box_chances := Function.update s.box_chances positionsArg.2.2 bc
                unsolved_fields := uf
                solution :=
                  Function.update s.solution
                    (positionsArg.1 * 9 + positionsArg.2.1) digit }

/-- The store produced by a successful `_set_field` (proved equal to it in
`_set_field_eq`). -/
def setStore (s : Store) (p : Pos) (digit : ℕ) : Store where
  row_chances := Function.update s.row_chances p.1 ((s.row_chances p.1).erase digit)
  column_chances :=
    Function.update s.column_chances p.2.1 ((s.column_chances p.2.1).erase digit)
  box_chances :=
    Function.update s.box_chances p.2.2 ((s.box_chances p.2.2).erase digit)
  unsolved_fields := s.unsolved_fields.erase p
  solution := Function.update s.solution (p.1 * 9 + p.2.1) digit

/-- Translation of `_reset_field`: re-insert `digit` into the three chance
sets, re-insert `positions` into the unsolved set, reset the solution cell
to `0`.  `set.add` and list assignment never raise, so this is total. -/
def _reset_field (s : Store) (positionsArg : Pos) (digit : ℕ) : Store where
  row_chances :=
    Function.update s.row_chances positionsArg.1
      (insert digit (s.row_chances positionsArg.1))
  column_chances :=
    Function.update s.column_chances positionsArg.2.1
      (insert digit (s.column_chances positionsArg.2.1))
  box_chances :=
    Function.update s.box_chances positionsArg.2.2
      (insert digit (s.box_chances positionsArg.2.2))
  unsolved_fields := insert positionsArg s.unsolved_fields
  solution :=
    Function.update s.solution (positionsArg.1 * 9 + positionsArg.2.1) 0

/-- Ascending iteration order of a CPython set of digits `1..9`, used for
`list(candidates)`: small-integer sets iterate in ascending numeric order,
realised here as a filter of the ascending digit list (the solver's digit
sets are always subsets of `{1..9}`). -/
def ascendingMembers (cand : Finset ℕ) : List ℕ :=
  [1, 2, 3, 4, 5, 6, 7, 8, 9].filter fun d => decide (d ∈ cand)

/-- The expression `row_chances[row] & column_chances[column] &
box_chances[box]` computed for each scanned cell in
`_choose_next_unsolved`. -/
def candidatesAt (s : Store) (p : Pos) : Finset ℕ :=
  s.row_chances p.1 ∩ s.column_chances p.2.1 ∩ s.box_chances p.2.2

/-- The scan order of `for row, column, box in unsolved_fields`: cells in
field-index order (the fixed deterministic order the embedding assigns to
the set iteration). -/
def unsolvedList (s : Store) : List Pos :=
  ((List.range 81).map _positions).filter fun p =>
    decide (p ∈ s.unsolved_fields)

/-- The loop body of `_choose_next_unsolved`: scan the cells, short-circuit
on a candidate count below 2, otherwise track the first cell whose count is
strictly below every count seen so far (starting from
`least_candidates_so_far = 9`). -/
def chooseAux (s : Store) :
    List Pos → ℕ → Option (Pos × List ℕ) → Option (Pos × List ℕ)
  | [], _, best_field => best_field
  | p :: rest, least_candidates_so_far, best_field =>
    let candidates := candidatesAt s p
    if candidates.card < 2 then some (p, ascendingMembers candidates)
    else if candidates.card < least_candidates_so_far then
      chooseAux s rest candidates.card (some (p, ascendingMembers candidates))
    else chooseAux s rest least_candidates_so_far best_field

/-- Translation of `_choose_next_unsolved`. -/
def _choose_next_unsolved (s : Store) : Option (Pos × List ℕ) :=
  chooseAux s (unsolvedList s) 9 none

/-- The `for candidate in candidates` loop of `_solve`, parametrised by the
recursive call `rec` (which will be `_solveF fuel`). -/
def _solveLoopA (rec : Store → Option (Except PyErr (Bool × Store)))
    (positionsArg : Pos) :
    List ℕ → Store → Option (Except PyErr (Bool × Store))
  | [], s => some (.ok (false, s))
  | candidate :: rest, s =>
    match _set_field s positionsArg candidate with
    | .error e => some (.error e)
    | .ok s1 =>
      match rec s1 with
      | none => none
      | some (.error e) => some (.error e)
      | some (.ok (true, s2)) => some (.ok (true, s2))
      | some (.ok (false, s2)) =>
        _solveLoopA rec positionsArg rest (_reset_field s2 positionsArg candidate)

/-- Translation of `_solve`, with an explicit fuel parameter bounding the
recursion depth; `none` means the fuel ran out (proved impossible below for
fuel exceeding the number of unsolved cells).  A `None` from
`_choose_next_unsolved` is unpacked by `positions, candidates = ...` in the
source, which raises `TypeError`. -/
def _solveF : ℕ → Store → Option (Except PyErr (Bool × Store))
  | 0, _ => none
  | fuel + 1, s =>
    if s.unsolved_fields.card = 0 then some (.ok (true, s))
    else
      match _choose_next_unsolved s with
      | none => some (.error .typeError)
      | some (positionsArg, candidates) =>
        _solveLoopA (_solveF fuel) positionsArg candidates s

/-- The recursive search run with enough fuel for its actual recursion
depth (one frame per cell placed, plus the final frame). -/
def _solve (s : Store) : Option (Except PyErr (Bool × Store)) :=
  _solveF (s.unsolved_fields.card + 1) s

/-- Translation of `int(digit)` applied to a single character: its value
for a decimal digit, `ValueError` otherwise. -/
def pyInt (c : Char) : Except PyErr ℕ :=
  if '0' ≤ c ∧ c ≤ '9' then .ok (c.toNat - '0'.toNat) else .error .valueError

/-- The `for field, digit in enumerate(puzzle)` loop of `_init_fields`:
seed every character not in `'.0'` with `_set_field`. -/
def initFieldsGo : Store → ℕ → List Char → Except PyErr Store
  | s, _, [] => .ok s
  | s, field, digit :: rest =>
    if digit = '.' ∨ digit = '0' then initFieldsGo s (field + 1) rest
    else
      match pyInt digit with
      | .error e => .error e
      | .ok d =>
        match _set_field s (_positions field) d with
        | .error e => .error e
        | .ok s' => initFieldsGo s' (field + 1) rest

/-- Translation of `_init_fields` (the fresh `solution = [0] * 81` list is
part of the initial store passed in by `solve`). -/
def _init_fields (puzzle : List Char) (s : Store) : Except PyErr Store :=
  initFieldsGo s 0 puzzle

/-- The character-checking loop of `_verify_grid`. -/
def verifyLoop : List Char → Except PyErr Unit
  | [] => .ok ()
  | c :: rest =>
    if c ∈ "0123456789".toList then verifyLoop rest else .error .valueError

/-- Translation of `_verify_grid`: raise `ValueError` on any character
outside `'0'..'9'`, otherwise return the grid unchanged.  Note that it
performs no length check and that `solve` never calls it (its callers are
`parse_input` and `Sudoku.__init__`). -/
def _verify_grid (encoded_grid : List Char) : Except PyErr (List Char) :=
  match verifyLoop encoded_grid with
  | .error e => .error e
  | .ok _ => .ok encoded_grid

/-- Translation of `''.join(map(str, solved))` reading the 81 solution
cells back out of the store. -/
def joinedSolution (s : Store) : List Char :=
  ((List.range 81).map fun f => Nat.toDigits 10 (s.solution f)).flatten

/-- Translation of `solve`: build the fresh store, seed the givens, run the
search, and either return the joined solution string or raise
`ValueError('Puzzle is not solvable: ...')`. -/
def solve (puzzle : List Char) : Option (Except PyErr (List Char)) :=
  match _init_fields puzzle initialStore with
  | .error e => some (.error e)
  | .ok s =>
    match _solve s with
    | none => none
    | some (.error e) => some (.error e)
    | some (.ok (false, _)) => some (.error .valueError)
    | some (.ok (true, s')) => some (.ok (joinedSolution s'))

/-! ## Units, held-digit counts and the consistency invariant -/

/-- The field indices belonging to unit `u` of the family whose unit index
is computed by `unitOf` (rows, columns or boxes via the `_positions`
components). -/
def unitCells (unitOf : ℕ → ℕ) (u : ℕ) : Finset ℕ :=
  (Finset.range 81).filter fun f => unitOf f = u

/-- Row component of `_positions`. -/
def rowOf (f : ℕ) : ℕ := (_positions f).1

/-- Column component of `_positions`. -/
def columnOf (f : ℕ) : ℕ := (_positions f).2.1

/-- Box component of `_positions`. -/
def boxOf (f : ℕ) : ℕ := (_positions f).2.2

/-- The cells of row `r` in the 81-cell grid. -/
def cellsOfRow (r : ℕ) : Finset ℕ := unitCells rowOf r

/-- The cells of column `c` in the 81-cell grid. -/
def cellsOfColumn (c : ℕ) : Finset ℕ := unitCells columnOf c

/-- The cells of box `b` in the 81-cell grid. -/
def cellsOfBox (b : ℕ) : Finset ℕ := unitCells boxOf b

/-- How many cells of `cells` currently hold the digit `d`. -/
def heldCount (sol : ℕ → ℕ) (cells : Finset ℕ) (d : ℕ) : ℕ :=
  (cells.filter fun f => sol f = d).card

/-- Consistency invariant for a store, satisfied by every state the solver
ever produces: per unit and digit, the number of cells of the unit holding
the digit is `0` when the digit is still in the unit's chance set and `1`
when it is not; a cell is in the unsolved set iff it holds `0`; chance sets
only hold digits `1..9`; the unsolved set only holds genuine position
triples; solution entries are at most `9`. -/
structure Inv (s : Store) : Prop where
  rowCount : ∀ u < 9, ∀ e, 1 ≤ e → e ≤ 9 →
    heldCount s.solution (cellsOfRow u) e = if e ∈ s.row_chances u then 0 else 1
  colCount : ∀ u < 9, ∀ e, 1 ≤ e → e ≤ 9 →
    heldCount s.solution (cellsOfColumn u) e
      = if e ∈ s.column_chances u then 0 else 1
  boxCount : ∀ u < 9, ∀ e, 1 ≤ e → e ≤ 9 →
    heldCount s.solution (cellsOfBox u) e = if e ∈ s.box_chances u then 0 else 1
  rowSub : ∀ u < 9, s.row_chances u ⊆ allDigits
  colSub : ∀ u < 9, s.column_chances u ⊆ allDigits
  boxSub : ∀ u < 9, s.box_chances u ⊆ allDigits
  unsolvedMem : ∀ f < 81, (_positions f ∈ s.unsolved_fields ↔ s.solution f = 0)
  unsolvedSub : s.unsolved_fields ⊆ _all_unsolved
  solRange : ∀ f, s.solution f ≤ 9

/-! ## The main search specification -/

/-- `s'` agrees with `s` on every cell `s` has already filled. -/
def AgreeNonzero (s s' : Store) : Prop :=
  ∀ g, s.solution g ≠ 0 → s'.solution g = s.solution g

/-- What a terminated search step guarantees, relative to its entry store
`s`: a `false` result returns the entry store unchanged, a `true` result
returns an invariant store with nothing left unsolved that extends the
filled cells of `s`, and the only error a search step itself can raise is
the `TypeError` from unpacking `None`. -/
def SearchSpec (s : Store) (res : Except PyErr (Bool × Store)) : Prop :=
  (∀ s', res = .ok (false, s') → s' = s) ∧
  (∀ s', res = .ok (true, s') →
    Inv s' ∧ s'.unsolved_fields = ∅ ∧ AgreeNonzero s s') ∧
  (∀ e, res = .error e → e = .typeError)

/-! ## Seeding the givens -/

/-- The numeric value `int(c)` of a digit character. -/
def digitVal (c : Char) : ℕ := c.toNat - '0'.toNat

/-- `c` is one of the characters `'1'..'9'` (a non-zero given). -/
def nzDigit (c : Char) : Prop := '1' ≤ c ∧ c ≤ '9'

instance (c : Char) : Decidable (nzDigit c) := by
  unfold nzDigit
  infer_instance

/-! ## Conflicting givens make seeding fail with `KeyError` -/

/-- Cells `i` and `j` of the puzzle are conflicting givens: both non-zero,
equal, and in a common row, column or box. -/
def ConflictAt (puzzle : List Char) (i j : ℕ) : Prop :=
  i < j ∧ j < puzzle.length ∧ nzDigit (puzzle.getD i '0') ∧
    nzDigit (puzzle.getD j '0') ∧ puzzle.getD i '0' = puzzle.getD j '0' ∧
    (rowOf i = rowOf j ∨ columnOf i = columnOf j ∨ boxOf i = boxOf j)

instance (puzzle : List Char) (i j : ℕ) : Decidable (ConflictAt puzzle i j) := by
  unfold ConflictAt
  infer_instance

/-- The puzzle places the same digit twice in some row, column or box. -/
def HasConflict (puzzle : List Char) : Prop := ∃ i j, ConflictAt puzzle i j

/-- State of the store after seeding the first `k` characters of the
puzzle: invariant holds, processed cells hold their given values, the rest
hold `0`. -/
def SeedState (puzzle : List Char) (k : ℕ) (s : Store) : Prop :=
  Inv s ∧
  (∀ f, f < k → f < puzzle.length →
    s.solution f =
      if nzDigit (puzzle.getD f '0') then digitVal (puzzle.getD f '0') else 0) ∧
  (∀ f, k ≤ f → s.solution f = 0)

/-! ## Concrete test inputs and reachable stores -/

/-- The classic puzzle's unique solution grid (a fully solved input). -/
def classicSolution : List Char :=
  "483921657967345821251876493548132976729564138136798245372689514814257369695413782".toList

/-- The solved grid with its first cell blanked to `'0'`: one search step. -/
def nearSolvedPuzzle : List Char :=
  "083921657967345821251876493548132976729564138136798245372689514814257369695413782".toList

/-- The solved grid with its first cell replaced by `'.'`: 81 characters,
one of them outside `'0'..'9'`. -/
def dottedPuzzle : List Char :=
  ".83921657967345821251876493548132976729564138136798245372689514814257369695413782".toList

/-- Row 0 holds `1..8` with its last cell blank, and a `9` sits below that
blank cell in column 8: the blank cell has no candidates, so the very first
search frame fails. -/
def deadEndPuzzle : List Char :=
  "123456780000000009".toList ++ List.replicate 63 '0'

/-- Two `5`s in row 0: conflicting givens. -/
def conflictPuzzle : List Char := "55".toList ++ List.replicate 79 '0'

/-- The store obtained by seeding `deadEndPuzzle` (seeding succeeds, see
`search_false_frame_witness`). -/
def seededDeadEnd : Store :=
  match _init_fields deadEndPuzzle initialStore with
  | .ok s => s
  | .error _ => initialStore

/-- A store in which cell 0 is listed as unsolved yet its solution entry
already holds `5`: the data-model invariant relating the unsolved set to
the grid is violated, but every digit is still in every chance set. -/
def staleStore : Store :=
  { initialStore with solution := Function.update initialStore.solution 0 5 }

/-- The stores reachable from the freshly initialised store by place
(`_set_field`) and unplace (`_reset_field`) operations, where — as
specified for `unplace` — an unplace of `(p, d)` is only ever used to undo
a place of the same `(p, d)`, i.e. it is applied when the cell at `p`
currently holds `d`. -/
inductive Reachable : Store → Prop where
  | init : Reachable initialStore
  | place {s s' : Store} {p : Pos} {d : ℕ} :
      Reachable s → _set_field s p d = .ok s' → Reachable s'
  | unplace {s : Store} {f d : ℕ} :
      Reachable s → f < 81 → s.solution f = d → d ≠ 0 →
      Reachable (_reset_field s (_positions f) d)

/-! ## Theorems -/

/-! ## Basic facts about positions and digit sets -/

/-- Reading the field index back out of a `(row, column, box)` triple:
`row * 9 + column` recovers the field. -/
theorem positions_field (f : ℕ) : (_positions f).1 * 9 + (_positions f).2.1 = f := by
  simp only [_positions]
  omega

theorem positions_injective : Function.Injective _positions := by
  intro f g h
  have h1 : (_positions f).1 * 9 + (_positions f).2.1 =
      (_positions g).1 * 9 + (_positions g).2.1 := by rw [h]
  rwa [positions_field, positions_field] at h1

theorem mem_all_unsolved {p : Pos} :
    p ∈ _all_unsolved ↔ ∃ f, f < 81 ∧ _positions f = p := by
  simp [_all_unsolved, Finset.mem_image]

theorem mem_allDigits {d : ℕ} : d ∈ allDigits ↔ 1 ≤ d ∧ d ≤ 9 := by
  simp only [allDigits, Finset.mem_insert, Finset.mem_singleton]
  omega

/-! ## Characterisation of `_set_field` -/

theorem _set_field_eq {s : Store} {p : Pos} {d : ℕ}
    (h1 : d ∈ s.row_chances p.1) (h2 : d ∈ s.column_chances p.2.1)
    (h3 : d ∈ s.box_chances p.2.2) (h4 : p ∈ s.unsolved_fields) :
    _set_field s p d = .ok (setStore s p d) := by
  simp [_set_field, pyRemove, h1, h2, h3, h4, setStore]

theorem _set_field_ok_inv {s s' : Store} {p : Pos} {d : ℕ}
    (h : _set_field s p d = .ok s') :
    d ∈ s.row_chances p.1 ∧ d ∈ s.column_chances p.2.1 ∧
      d ∈ s.box_chances p.2.2 ∧ p ∈ s.unsolved_fields ∧ s' = setStore s p d := by
  by_cases h1 : d ∈ s.row_chances p.1
  · by_cases h2 : d ∈ s.column_chances p.2.1
    · by_cases h3 : d ∈ s.box_chances p.2.2
      · by_cases h4 : p ∈ s.unsolved_fields
        · rw [_set_field_eq h1 h2 h3 h4] at h
          exact ⟨h1, h2, h3, h4, (Except.ok.injEq _ _).mp h |>.symm⟩
        · simp [_set_field, pyRemove, h1, h2, h3, h4] at h
      · simp [_set_field, pyRemove, h1, h2, h3] at h
    · simp [_set_field, pyRemove, h1, h2] at h
  · simp [_set_field, pyRemove, h1] at h

theorem _set_field_error_keyError {s : Store} {p : Pos} {d : ℕ} {e : PyErr}
    (h : _set_field s p d = .error e) : e = .keyError := by
  by_cases h1 : d ∈ s.row_chances p.1
  · by_cases h2 : d ∈ s.column_chances p.2.1
    · by_cases h3 : d ∈ s.box_chances p.2.2
      · by_cases h4 : p ∈ s.unsolved_fields
        · rw [_set_field_eq h1 h2 h3 h4] at h
          exact absurd h (by simp)
        · simp [_set_field, pyRemove, h1, h2, h3, h4] at h
          exact h.symm
      · simp [_set_field, pyRemove, h1, h2, h3] at h
        exact h.symm
    · simp [_set_field, pyRemove, h1, h2] at h
      exact h.symm
  · simp [_set_field, pyRemove, h1] at h
    exact h.symm

theorem _set_field_error_of_missing {s : Store} {p : Pos} {d : ℕ}
    (h : d ∉ s.row_chances p.1 ∨ d ∉ s.column_chances p.2.1 ∨
      d ∉ s.box_chances p.2.2 ∨ p ∉ s.unsolved_fields) :
    _set_field s p d = .error .keyError := by
  by_cases h1 : d ∈ s.row_chances p.1
  · by_cases h2 : d ∈ s.column_chances p.2.1
    · by_cases h3 : d ∈ s.box_chances p.2.2
      · by_cases h4 : p ∈ s.unsolved_fields
        · tauto
        · simp [_set_field, pyRemove, h1, h2, h3, h4]
      · simp [_set_field, pyRemove, h1, h2, h3]
    · simp [_set_field, pyRemove, h1, h2]
  · simp [_set_field, pyRemove, h1]

/-- Undoing a placement with `_reset_field` restores the exact prior store,
provided the placement was legal and the cell previously held `0`. -/
theorem _reset_field_setStore {s : Store} {p : Pos} {d : ℕ}
    (h1 : d ∈ s.row_chances p.1) (h2 : d ∈ s.column_chances p.2.1)
    (h3 : d ∈ s.box_chances p.2.2) (h4 : p ∈ s.unsolved_fields)
    (h5 : s.solution (p.1 * 9 + p.2.1) = 0) :
    _reset_field (setStore s p d) p d = s := by
  ext1
  · simp only [_reset_field, setStore, Function.update_same, Function.update_idem]
    rw [Finset.insert_erase h1, Function.update_eq_self]
  · simp only [_reset_field, setStore, Function.update_same, Function.update_idem]
    rw [Finset.insert_erase h2, Function.update_eq_self]
  · simp only [_reset_field, setStore, Function.update_same, Function.update_idem]
    rw [Finset.insert_erase h3, Function.update_eq_self]
  · simp only [_reset_field, setStore]
    exact Finset.insert_erase h4
  · simp only [_reset_field, setStore, Function.update_idem]
    rw [← h5, Function.update_eq_self]

theorem mem_unitCells {unitOf : ℕ → ℕ} {u f : ℕ} :
    f ∈ unitCells unitOf u ↔ f < 81 ∧ unitOf f = u := by
  simp [unitCells]

theorem positions_lt {f : ℕ} (hf : f < 81) :
    rowOf f < 9 ∧ columnOf f < 9 ∧ boxOf f < 9 := by
  simp only [rowOf, columnOf, boxOf, _positions]
  omega

theorem heldCount_erase_of_ne {sol : ℕ → ℕ} {cells : Finset ℕ} {f d : ℕ}
    (_hf : f ∈ cells) (hne : sol f ≠ d) :
    heldCount sol (cells.erase f) d = heldCount sol cells d := by
  unfold heldCount
  congr 1
  rw [Finset.filter_erase]
  exact Finset.erase_eq_of_not_mem (by simp [hne])

theorem heldCount_split {sol : ℕ → ℕ} {cells : Finset ℕ} {f : ℕ}
    (hf : f ∈ cells) (d : ℕ) :
    heldCount sol cells d
      = (if sol f = d then 1 else 0) + heldCount sol (cells.erase f) d := by
  by_cases h : sol f = d
  · rw [if_pos h]
    unfold heldCount
    have hmemf : f ∈ cells.filter fun g => sol g = d :=
      Finset.mem_filter.mpr ⟨hf, h⟩
    rw [Finset.filter_erase, ← Finset.card_erase_add_one hmemf]
    omega
  · rw [if_neg h, heldCount_erase_of_ne hf h]
    omega

theorem heldCount_update_of_mem {sol : ℕ → ℕ} {cells : Finset ℕ} {f : ℕ}
    (hf : f ∈ cells) (v d : ℕ) :
    heldCount (Function.update sol f v) cells d
      = (if v = d then 1 else 0) + heldCount sol (cells.erase f) d := by
  rw [@heldCount_split (Function.update sol f v) cells f hf d, Function.update_same]
  congr 1
  unfold heldCount
  congr 1
  apply Finset.filter_congr
  intro g hg
  rw [Function.update_noteq (Finset.ne_of_mem_erase hg)]

theorem heldCount_update_of_not_mem {sol : ℕ → ℕ} {cells : Finset ℕ} {f : ℕ}
    (hf : f ∉ cells) (v d : ℕ) :
    heldCount (Function.update sol f v) cells d = heldCount sol cells d := by
  unfold heldCount
  congr 1
  apply Finset.filter_congr
  intro g hg
  rw [Function.update_noteq (by rintro rfl; exact hf hg)]

/-- Generic count-invariant preservation for one chance-set family when a
digit is placed at a previously-empty cell. -/
theorem count_after_place (unitOf : ℕ → ℕ) (fam : ℕ → Finset ℕ) (sol : ℕ → ℕ)
    {f0 d : ℕ} (hf0 : f0 < 81) (hd1 : 1 ≤ d)
    (hmem : d ∈ fam (unitOf f0)) (hzero : sol f0 = 0)
    (hcount : ∀ u < 9, ∀ e, 1 ≤ e → e ≤ 9 →
      heldCount sol (unitCells unitOf u) e = if e ∈ fam u then 0 else 1) :
    ∀ u < 9, ∀ e, 1 ≤ e → e ≤ 9 →
      heldCount (Function.update sol f0 d) (unitCells unitOf u) e
        = if e ∈ Function.update fam (unitOf f0) ((fam (unitOf f0)).erase d) u
          then 0 else 1 := by
  intro u hu e he1 he9
  by_cases huu : u = unitOf f0
  · subst huu
    have hfc : f0 ∈ unitCells unitOf (unitOf f0) := mem_unitCells.mpr ⟨hf0, rfl⟩
    rw [heldCount_update_of_mem hfc, Function.update_same,
      heldCount_erase_of_ne hfc (by omega), hcount _ hu e he1 he9]
    by_cases hed : e = d
    · subst hed
      simp [hmem]
    · have hde : ¬d = e := fun h => hed h.symm
      simp [hed, Finset.mem_erase, hde]
  · have hfc : f0 ∉ unitCells unitOf u := by
      rw [mem_unitCells]
      rintro ⟨-, rfl⟩
      exact huu rfl
    rw [heldCount_update_of_not_mem hfc,
      Function.update_noteq (Ne.symm fun h => huu h.symm),
      hcount u hu e he1 he9]

/-- Generic count-invariant preservation for one chance-set family when the
digit held at a cell is removed again. -/
theorem count_after_unplace (unitOf : ℕ → ℕ) (fam : ℕ → Finset ℕ) (sol : ℕ → ℕ)
    {f0 d : ℕ} (hf0 : f0 < 81) (hd1 : 1 ≤ d) (hd9 : d ≤ 9)
    (hheld : sol f0 = d)
    (hcount : ∀ u < 9, ∀ e, 1 ≤ e → e ≤ 9 →
      heldCount sol (unitCells unitOf u) e = if e ∈ fam u then 0 else 1) :
    ∀ u < 9, ∀ e, 1 ≤ e → e ≤ 9 →
      heldCount (Function.update sol f0 0) (unitCells unitOf u) e
        = if e ∈ Function.update fam (unitOf f0) (insert d (fam (unitOf f0))) u
          then 0 else 1 := by
  intro u hu e he1 he9
  by_cases huu : u = unitOf f0
  · subst huu
    have hfc : f0 ∈ unitCells unitOf (unitOf f0) := mem_unitCells.mpr ⟨hf0, rfl⟩
    rw [heldCount_update_of_mem hfc, Function.update_same]
    by_cases hed : e = d
    · subst hed
      have hsplit := @heldCount_split sol (unitCells unitOf (unitOf f0)) f0 hfc e
      rw [hcount _ hu e he1 he9, if_pos hheld] at hsplit
      by_cases hmem : e ∈ fam (unitOf f0)
      · rw [if_pos hmem] at hsplit
        omega
      · simp only [if_neg hmem] at hsplit
        simp [show heldCount sol ((unitCells unitOf (unitOf f0)).erase f0) e = 0
          by omega, show (0 : ℕ) ≠ e by omega]
    · rw [heldCount_erase_of_ne hfc (by omega), hcount _ hu e he1 he9]
      simp [hed, Finset.mem_insert, show (0 : ℕ) ≠ e by omega]
  · have hfc : f0 ∉ unitCells unitOf u := by
      rw [mem_unitCells]
      rintro ⟨-, rfl⟩
      exact huu rfl
    rw [heldCount_update_of_not_mem hfc,
      Function.update_noteq (Ne.symm fun h => huu h.symm),
      hcount u hu e he1 he9]

/-- A legal placement (digit in all three chance sets, cell unsolved)
preserves the consistency invariant. -/
theorem Inv_setStore {s : Store} {p : Pos} {d : ℕ} (hs : Inv s)
    (h1 : d ∈ s.row_chances p.1) (h2 : d ∈ s.column_chances p.2.1)
    (h3 : d ∈ s.box_chances p.2.2) (h4 : p ∈ s.unsolved_fields) :
    Inv (setStore s p d) := by
  obtain ⟨f0, hf0, rfl⟩ := mem_all_unsolved.mp (hs.unsolvedSub h4)
  have hrow9 := (positions_lt hf0).1
  have hd : 1 ≤ d ∧ d ≤ 9 := mem_allDigits.mp (hs.rowSub _ hrow9 h1)
  have hzero : s.solution f0 = 0 := (hs.unsolvedMem f0 hf0).mp h4
  have hindex : (_positions f0).1 * 9 + (_positions f0).2.1 = f0 :=
    positions_field f0
  refine ⟨?_, ?_, ?_, ?_, ?_, ?_, ?_, ?_, ?_⟩
  · intro u hu e he1 he9
    have := count_after_place rowOf s.row_chances s.solution hf0 hd.1 h1 hzero
      hs.rowCount u hu e he1 he9
    simpa [setStore, cellsOfRow, rowOf, hindex] using this
  · intro u hu e he1 he9
    have := count_after_place columnOf s.column_chances s.solution hf0 hd.1 h2
      hzero hs.colCount u hu e he1 he9
    simpa [setStore, cellsOfColumn, columnOf, hindex] using this
  · intro u hu e he1 he9
    have := count_after_place boxOf s.box_chances s.solution hf0 hd.1 h3 hzero
      hs.boxCount u hu e he1 he9
    simpa [setStore, cellsOfBox, boxOf, hindex] using this
  · intro u hu
    simp only [setStore]
    by_cases huu : u = (_positions f0).1
    · subst huu
      rw [Function.update_same]
      exact (Finset.erase_subset _ _).trans (hs.rowSub _ hu)
    · rw [Function.update_noteq huu]
      exact hs.rowSub _ hu
  · intro u hu
    simp only [setStore]
    by_cases huu : u = (_positions f0).2.1
    · subst huu
      rw [Function.update_same]
      exact (Finset.erase_subset _ _).trans (hs.colSub _ hu)
    · rw [Function.update_noteq huu]
      exact hs.colSub _ hu
  · intro u hu
    simp only [setStore]
    by_cases huu : u = (_positions f0).2.2
    · subst huu
      rw [Function.update_same]
      exact (Finset.erase_subset _ _).trans (hs.boxSub _ hu)
    · rw [Function.update_noteq huu]
      exact hs.boxSub _ hu
  · intro g hg
    simp only [setStore]
    rw [hindex]
    by_cases hgf : g = f0
    · subst hgf
      rw [Function.update_same]
      simp [Finset.mem_erase]
      omega
    · have hne : _positions g ≠ _positions f0 := fun h => hgf (positions_injective h)
      rw [Function.update_noteq hgf]
      simp only [Finset.mem_erase, hne, true_and, ne_eq, not_false_eq_true]
      exact hs.unsolvedMem g hg
  · simp only [setStore]
    exact (Finset.erase_subset _ _).trans hs.unsolvedSub
  · intro g
    simp only [setStore]
    rw [hindex]
    by_cases hgf : g = f0
    · subst hgf
      rw [Function.update_same]
      exact hd.2
    · rw [Function.update_noteq hgf]
      exact hs.solRange g

/-- Undoing the placement of the digit currently held at a cell preserves
the consistency invariant. -/
theorem Inv_reset {s : Store} {f0 d : ℕ} (hs : Inv s) (hf0 : f0 < 81)
    (hheld : s.solution f0 = d) (hd1 : 1 ≤ d) :
    Inv (_reset_field s (_positions f0) d) := by
  have hd9 : d ≤ 9 := hheld ▸ hs.solRange f0
  have hdall : d ∈ allDigits := mem_allDigits.mpr ⟨hd1, hd9⟩
  have hindex : (_positions f0).1 * 9 + (_positions f0).2.1 = f0 :=
    positions_field f0
  refine ⟨?_, ?_, ?_, ?_, ?_, ?_, ?_, ?_, ?_⟩
  · intro u hu e he1 he9
    have := count_after_unplace rowOf s.row_chances s.solution hf0 hd1 hd9 hheld
      hs.rowCount u hu e he1 he9
    simpa [_reset_field, cellsOfRow, rowOf, hindex] using this
  · intro u hu e he1 he9
    have := count_after_unplace columnOf s.column_chances s.solution hf0 hd1 hd9
      hheld hs.colCount u hu e he1 he9
    simpa [_reset_field, cellsOfColumn, columnOf, hindex] using this
  · intro u hu e he1 he9
    have := count_after_unplace boxOf s.box_chances s.solution hf0 hd1 hd9 hheld
      hs.boxCount u hu e he1 he9
    simpa [_reset_field, cellsOfBox, boxOf, hindex] using this
  · intro u hu
    simp only [_reset_field]
    by_cases huu : u = (_positions f0).1
    · subst huu
      rw [Function.update_same]
      exact Finset.insert_subset hdall (hs.rowSub _ hu)
    · rw [Function.update_noteq huu]
      exact hs.rowSub _ hu
  · intro u hu
    simp only [_reset_field]
    by_cases huu : u = (_positions f0).2.1
    · subst huu
      rw [Function.update_same]
      exact Finset.insert_subset hdall (hs.colSub _ hu)
    · rw [Function.update_noteq huu]
      exact hs.colSub _ hu
  · intro u hu
    simp only [_reset_field]
    by_cases huu : u = (_positions f0).2.2
    · subst huu
      rw [Function.update_same]
      exact Finset.insert_subset hdall (hs.boxSub _ hu)
    · rw [Function.update_noteq huu]
      exact hs.boxSub _ hu
  · intro g hg
    simp only [_reset_field]
    rw [hindex]
    by_cases hgf : g = f0
    · subst hgf
      rw [Function.update_same]
      simp [Finset.mem_insert]
    · have hne : _positions g ≠ _positions f0 := fun h => hgf (positions_injective h)
      rw [Function.update_noteq hgf]
      simp only [Finset.mem_insert, hne, false_or]
      exact hs.unsolvedMem g hg
  · simp only [_reset_field]
    exact Finset.insert_subset (mem_all_unsolved.mpr ⟨f0, hf0, rfl⟩) hs.unsolvedSub
  · intro g
    simp only [_reset_field]
    rw [hindex]
    by_cases hgf : g = f0
    · subst hgf
      rw [Function.update_same]
      omega
    · rw [Function.update_noteq hgf]
      exact hs.solRange g

/-- The freshly initialised store satisfies the consistency invariant. -/
theorem Inv_initialStore : Inv initialStore := by
  refine ⟨?_, ?_, ?_, ?_, ?_, ?_, ?_, ?_, ?_⟩
  · intro u _ e he1 he9
    simp only [initialStore]
    rw [if_pos (mem_allDigits.mpr ⟨he1, he9⟩)]
    simp only [heldCount, Finset.card_eq_zero, Finset.filter_eq_empty_iff]
    intro g _
    omega
  · intro u _ e he1 he9
    simp only [initialStore]
    rw [if_pos (mem_allDigits.mpr ⟨he1, he9⟩)]
    simp only [heldCount, Finset.card_eq_zero, Finset.filter_eq_empty_iff]
    intro g _
    omega
  · intro u _ e he1 he9
    simp only [initialStore]
    rw [if_pos (mem_allDigits.mpr ⟨he1, he9⟩)]
    simp only [heldCount, Finset.card_eq_zero, Finset.filter_eq_empty_iff]
    intro g _
    omega
  · intro u _
    exact Finset.Subset.refl _
  · intro u _
    exact Finset.Subset.refl _
  · intro u _
    exact Finset.Subset.refl _
  · intro f hf
    exact iff_of_true (mem_all_unsolved.mpr ⟨f, hf, rfl⟩) rfl
  · exact Finset.Subset.refl _
  · intro f
    exact Nat.zero_le 9

/-! ## Soundness of the selection scan -/

theorem mem_candidatesAt {s : Store} {p : Pos} {c : ℕ} (h : c ∈ candidatesAt s p) :
    c ∈ s.row_chances p.1 ∧ c ∈ s.column_chances p.2.1 ∧ c ∈ s.box_chances p.2.2 := by
  simp only [candidatesAt, Finset.mem_inter] at h
  exact ⟨h.1.1, h.1.2, h.2⟩

theorem chooseAux_sound (s : Store) :
    ∀ (L : List Pos) (least : ℕ) (best : Option (Pos × List ℕ)),
      (∀ q ∈ L, q ∈ s.unsolved_fields) →
      (∀ q cs, best = some (q, cs) →
        q ∈ s.unsolved_fields ∧ ∀ c ∈ cs, c ∈ candidatesAt s q) →
      ∀ q cs, chooseAux s L least best = some (q, cs) →
        q ∈ s.unsolved_fields ∧ ∀ c ∈ cs, c ∈ candidatesAt s q
  | [], _least, _best, _hL, hbest => hbest
  | p :: rest, least, best, hL, hbest => by
    intro q cs h
    simp only [chooseAux] at h
    by_cases h2 : (candidatesAt s p).card < 2
    · rw [if_pos h2] at h
      obtain ⟨rfl, rfl⟩ : p = q ∧ ascendingMembers (candidatesAt s p) = cs := by
        simpa using h
      exact ⟨hL p (List.mem_cons_self p rest),
        fun c hc => by simpa using (List.mem_filter.mp hc).2⟩
    · rw [if_neg h2] at h
      by_cases h3 : (candidatesAt s p).card < least
      · rw [if_pos h3] at h
        refine chooseAux_sound s rest _ _
          (fun q' hq' => hL q' (List.mem_cons_of_mem _ hq')) ?_ q cs h
        rintro q' cs' h'
        obtain ⟨rfl, rfl⟩ : p = q' ∧ ascendingMembers (candidatesAt s p) = cs' := by
          simpa using h'
        exact ⟨hL p (List.mem_cons_self p rest),
          fun c hc => by simpa using (List.mem_filter.mp hc).2⟩
      · rw [if_neg h3] at h
        exact chooseAux_sound s rest _ _
          (fun q' hq' => hL q' (List.mem_cons_of_mem _ hq')) hbest q cs h

theorem choose_sound {s : Store} {p : Pos} {cs : List ℕ}
    (h : _choose_next_unsolved s = some (p, cs)) :
    p ∈ s.unsolved_fields ∧ ∀ c ∈ cs, c ∈ candidatesAt s p := by
  refine chooseAux_sound s (unsolvedList s) 9 none ?_ ?_ p cs h
  · intro q hq
    simp only [unsolvedList, List.mem_filter, decide_eq_true_eq] at hq
    exact hq.2
  · intro q cs' h'
    exact absurd h' (by simp)

/-! ## The failing search restores the unsolved set, and fuel suffices -/

theorem solveLoopA_false_unsolved
    (rec : Store → Option (Except PyErr (Bool × Store)))
    (hrec : ∀ t t', rec t = some (.ok (false, t')) →
      t'.unsolved_fields = t.unsolved_fields)
    (pos : Pos) :
    ∀ (cands : List ℕ) (s s' : Store),
      _solveLoopA rec pos cands s = some (.ok (false, s')) →
      s'.unsolved_fields = s.unsolved_fields
  | [], s, s', h => by
    obtain rfl : s = s' := by simpa [_solveLoopA] using h
    rfl
  | c :: rest, s, s', h => by
    simp only [_solveLoopA] at h
    split at h
    · simp at h
    · rename_i s1 hset
      split at h
      · simp at h
      · simp at h
      · simp at h
      · rename_i s2 hrec1
        obtain ⟨-, -, -, hpos, rfl⟩ := _set_field_ok_inv hset
        have h2 := solveLoopA_false_unsolved rec hrec pos rest _ s' h
        have h3 : s2.unsolved_fields = (setStore s pos c).unsolved_fields :=
          hrec _ _ hrec1
        rw [h2]
        show insert pos s2.unsolved_fields = s.unsolved_fields
        rw [h3]
        show insert pos (s.unsolved_fields.erase pos) = s.unsolved_fields
        exact Finset.insert_erase hpos

theorem solveF_false_unsolved :
    ∀ (f : ℕ) (s s' : Store), _solveF f s = some (.ok (false, s')) →
      s'.unsolved_fields = s.unsolved_fields
  | 0, s, s', h => by simp [_solveF] at h
  | f + 1, s, s', h => by
    simp only [_solveF] at h
    split at h
    · simp at h
    · split at h
      · simp at h
      · rename_i pos cands _hch
        exact solveLoopA_false_unsolved (_solveF f)
          (fun t t' ht => solveF_false_unsolved f t t' ht) pos cands s s' h

theorem solveLoopA_ne_none
    (rec : Store → Option (Except PyErr (Bool × Store))) (n : ℕ)
    (hrecN : ∀ t, t.unsolved_fields.card < n → rec t ≠ none)
    (hrecF : ∀ t t', rec t = some (.ok (false, t')) →
      t'.unsolved_fields = t.unsolved_fields)
    (pos : Pos) :
    ∀ (cands : List ℕ) (s : Store), s.unsolved_fields.card < n + 1 →
      _solveLoopA rec pos cands s ≠ none
  | [], s, _hcard => by simp [_solveLoopA]
  | c :: rest, s, hcard => by
    simp only [_solveLoopA]
    split
    · simp
    · rename_i s1 hset
      obtain ⟨-, -, -, hpos, rfl⟩ := _set_field_ok_inv hset
      have hcard1 : (setStore s pos c).unsolved_fields.card < n := by
        have h5 := Finset.card_erase_of_mem hpos
        have h6 := Finset.card_pos.mpr ⟨pos, hpos⟩
        show (s.unsolved_fields.erase pos).card < n
        omega
      split
      · rename_i hrec1
        exact absurd hrec1 (hrecN _ hcard1)
      · simp
      · simp
      · rename_i s2 hrec1
        have h3 : s2.unsolved_fields = (setStore s pos c).unsolved_fields :=
          hrecF _ _ hrec1
        have hcard2 : (_reset_field s2 pos c).unsolved_fields.card < n + 1 := by
          show (insert pos s2.unsolved_fields).card < n + 1
          rw [h3]
          show (insert pos (s.unsolved_fields.erase pos)).card < n + 1
          rw [Finset.insert_erase hpos]
          exact hcard
        exact solveLoopA_ne_none rec n hrecN hrecF pos rest _ hcard2

/-- With fuel exceeding the number of unsolved cells, the search never runs
out of fuel: the real recursion depth is bounded by the unsolved count. -/
theorem solveF_ne_none :
    ∀ (f : ℕ) (s : Store), s.unsolved_fields.card < f → _solveF f s ≠ none
  | 0, _s, hcard => by omega
  | f + 1, s, hcard => by
    simp only [_solveF]
    split
    · simp
    · split
      · simp
      · rename_i pos cands _hch
        exact solveLoopA_ne_none (_solveF f) f
          (fun t ht => solveF_ne_none f t ht)
          (fun t t' ht => solveF_false_unsolved f t t' ht)
          pos cands s (by omega)

theorem solveLoopA_spec
    (rec : Store → Option (Except PyErr (Bool × Store)))
    (hrec : ∀ t, Inv t → ∀ res, rec t = some res → SearchSpec t res)
    (pos : Pos) :
    ∀ (cands : List ℕ) (s : Store), Inv s → pos ∈ s.unsolved_fields →
      (∀ c ∈ cands, c ∈ candidatesAt s pos) →
      ∀ res, _solveLoopA rec pos cands s = some res → SearchSpec s res
  | [], s, _hs, _hpos, _hcands, res, h => by
    obtain rfl : res = .ok (false, s) := by
      have h' : some (Except.ok (false, s)
          : Except PyErr (Bool × Store)) = some res := by
        simpa [_solveLoopA] using h
      simpa using h'.symm
    refine ⟨fun s' h' => ?_, fun s' h' => by simp at h', fun e h' => by simp at h'⟩
    obtain rfl : s = s' := by simpa using h'
    rfl
  | c :: rest, s, hs, hpos, hcands, res, h => by
    simp only [_solveLoopA] at h
    have hc := hcands c (List.mem_cons_self c rest)
    obtain ⟨h1, h2, h3⟩ := mem_candidatesAt hc
    obtain ⟨f0, hf0, hp⟩ := mem_all_unsolved.mp (hs.unsolvedSub hpos)
    have hidx : pos.1 * 9 + pos.2.1 = f0 := by
      rw [← hp]
      exact positions_field f0
    have hposf : _positions f0 ∈ s.unsolved_fields := by
      rw [hp]
      exact hpos
    have hzero : s.solution f0 = 0 := (hs.unsolvedMem f0 hf0).mp hposf
    split at h
    · rename_i e hset
      rw [_set_field_eq h1 h2 h3 hpos] at hset
      simp at hset
    · rename_i s1 hset
      have hs1eq : s1 = setStore s pos c := (_set_field_ok_inv hset).2.2.2.2
      subst hs1eq
      have hInv1 : Inv (setStore s pos c) := Inv_setStore hs h1 h2 h3 hpos
      split at h
      · simp at h
      · rename_i e hrec1
        obtain rfl : res = .error e := by simpa using h.symm
        have he := (hrec _ hInv1 _ hrec1).2.2 e rfl
        refine ⟨fun s' h' => by simp at h', fun s' h' => by simp at h',
          fun e' h' => ?_⟩
        obtain rfl : e = e' := by simpa using h'
        exact he
      · rename_i s2 hrec1
        obtain rfl : res = .ok (true, s2) := by simpa using h.symm
        obtain ⟨hI2, hE2, hA2⟩ := (hrec _ hInv1 _ hrec1).2.1 s2 rfl
        refine ⟨fun s' h' => by simp at h', fun s' h' => ?_,
          fun e h' => by simp at h'⟩
        obtain rfl : s2 = s' := by simpa using h'
        refine ⟨hI2, hE2, fun g hg => ?_⟩
        have hgf : g ≠ f0 := fun hgf => by
          rw [hgf] at hg
          exact hg hzero
        have hsol1 : (setStore s pos c).solution g = s.solution g := by
          show Function.update s.solution (pos.1 * 9 + pos.2.1) c g = _
          rw [hidx, Function.update_noteq hgf]
        exact (hA2 g (by rw [hsol1]; exact hg)).trans hsol1
      · rename_i s2 hrec1
        have hs2 : s2 = setStore s pos c := (hrec _ hInv1 _ hrec1).1 s2 rfl
        subst hs2
        rw [show _reset_field (setStore s pos c) pos c = s from
          _reset_field_setStore h1 h2 h3 hpos (by rw [hidx]; exact hzero)] at h
        exact solveLoopA_spec rec hrec pos rest s hs hpos
          (fun c' hc' => hcands c' (List.mem_cons_of_mem _ hc')) res h

theorem solveF_spec :
    ∀ (f : ℕ) (s : Store), Inv s → ∀ res, _solveF f s = some res → SearchSpec s res
  | 0, _s, _hs, _res, h => by simp [_solveF] at h
  | f + 1, s, hs, res, h => by
    simp only [_solveF] at h
    split at h
    · rename_i hcard
      obtain rfl : res = .ok (true, s) := by simpa using h.symm
      refine ⟨fun s' h' => by simp at h', fun s' h' => ?_,
        fun e h' => by simp at h'⟩
      obtain rfl : s = s' := by simpa using h'
      exact ⟨hs, Finset.card_eq_zero.mp hcard, fun g _hg => rfl⟩
    · split at h
      · obtain rfl : res = .error .typeError := by simpa using h.symm
        exact ⟨fun s' h' => by simp at h', fun s' h' => by simp at h',
          fun e h' => by simpa using h'.symm⟩
      · rename_i pos cands hch
        obtain ⟨hpos, hcands⟩ := choose_sound hch
        exact solveLoopA_spec (_solveF f)
          (fun t ht res' h' => solveF_spec f t ht res' h') pos cands s hs hpos
          hcands res h

theorem char_toNat_inj {c d : Char} (h : c.toNat = d.toNat) : c = d := by
  unfold Char.toNat at h
  exact Char.eq_of_val_eq (UInt32.toNat.inj h)

theorem nzDigit_toNat {c : Char} (h : nzDigit c) :
    49 ≤ c.toNat ∧ c.toNat ≤ 57 := ⟨h.1, h.2⟩

theorem digitVal_bounds {c : Char} (h : nzDigit c) :
    1 ≤ digitVal c ∧ digitVal c ≤ 9 := by
  have := nzDigit_toNat h
  have h48 : '0'.toNat = 48 := rfl
  unfold digitVal
  omega

theorem nzDigit_of_digit_ne_zero {c : Char} (h0 : '0' ≤ c) (h9 : c ≤ '9')
    (hne : ¬(c = '.' ∨ c = '0')) : nzDigit c := by
  have h48 : 48 ≤ c.toNat := h0
  have h57 : c.toNat ≤ 57 := h9
  have : c.toNat ≠ 48 := fun h => (hne (Or.inr (char_toNat_inj h))).elim
  exact ⟨show 49 ≤ c.toNat by omega, h57⟩

theorem not_nzDigit_dot : ¬nzDigit '.' := by decide

theorem not_nzDigit_zero : ¬nzDigit '0' := by decide

theorem pyInt_nz {c : Char} (h : nzDigit c) : pyInt c = .ok (digitVal c) := by
  have := nzDigit_toNat h
  have h1 : '0' ≤ c := show 48 ≤ c.toNat by omega
  have h2 : c ≤ '9' := show c.toNat ≤ 57 by omega
  simp [pyInt, h1, h2, digitVal]

theorem digitVal_inj {c d : Char} (hc : nzDigit c) (hd : nzDigit d)
    (h : digitVal c = digitVal d) : c = d := by
  have h1 := nzDigit_toNat hc
  have h2 := nzDigit_toNat hd
  have h48 : '0'.toNat = 48 := rfl
  unfold digitVal at h
  exact char_toNat_inj (by omega)

/-- Successful seeding preserves the consistency invariant. -/
theorem initFieldsGo_Inv :
    ∀ (chars : List Char) (s : Store) (k : ℕ) (s' : Store), Inv s →
      initFieldsGo s k chars = .ok s' → Inv s'
  | [], s, _k, s', hs, h => by
    obtain rfl : s = s' := by simpa [initFieldsGo] using h
    exact hs
  | _ch :: rest, s, k, s', hs, h => by
    simp only [initFieldsGo] at h
    split at h
    · exact initFieldsGo_Inv rest s (k + 1) s' hs h
    · split at h
      · simp at h
      · split at h
        · simp at h
        · rename_i hset
          obtain ⟨m1, m2, m3, m4, rfl⟩ := _set_field_ok_inv hset
          exact initFieldsGo_Inv rest _ (k + 1) s'
            (Inv_setStore hs m1 m2 m3 m4) h

/-- Successful seeding leaves cells below the running index untouched and
writes the value of every non-zero digit character into its cell. -/
theorem initFieldsGo_values :
    ∀ (chars : List Char) (k : ℕ) (s s' : Store),
      initFieldsGo s k chars = .ok s' →
      (∀ g, g < k → s'.solution g = s.solution g) ∧
      (∀ i, i < chars.length → nzDigit (chars.getD i '0') →
        s'.solution (k + i) = digitVal (chars.getD i '0'))
  | [], k, s, s', h => by
    obtain rfl : s = s' := by simpa [initFieldsGo] using h
    exact ⟨fun g _ => rfl, fun i hi => by simp at hi⟩
  | ch :: rest, k, s, s', h => by
    simp only [initFieldsGo] at h
    split at h
    · rename_i hskip
      have ih := initFieldsGo_values rest (k + 1) s s' h
      refine ⟨fun g hg => ih.1 g (by omega), fun i hi hnz => ?_⟩
      match i with
      | 0 =>
        rw [List.getD_cons_zero] at hnz
        rcases hskip with rfl | rfl
        · exact absurd hnz not_nzDigit_dot
        · exact absurd hnz not_nzDigit_zero
      | i' + 1 =>
        rw [List.getD_cons_succ] at hnz ⊢
        rw [show k + (i' + 1) = (k + 1) + i' by omega]
        exact ih.2 i' (by simpa using hi) hnz
    · rename_i hskip
      split at h
      · simp at h
      · rename_i d hpy
        split at h
        · simp at h
        · rename_i s1 hset
          have hs1 : s1 = setStore s (_positions k) d :=
            (_set_field_ok_inv hset).2.2.2.2
          subst hs1
          have hidx : (_positions k).1 * 9 + (_positions k).2.1 = k :=
            positions_field k
          have hd : '0' ≤ ch ∧ ch ≤ '9' ∧ d = digitVal ch := by
            by_cases hc : '0' ≤ ch ∧ ch ≤ '9'
            · refine ⟨hc.1, hc.2, ?_⟩
              simp only [pyInt, if_pos hc] at hpy
              simpa [digitVal] using hpy.symm
            · simp [pyInt, if_neg hc] at hpy
          have ih := initFieldsGo_values rest (k + 1) _ s' h
          have hsolk : s'.solution k = d := by
            rw [ih.1 k (by omega)]
            show Function.update s.solution ((_positions k).1 * 9 + (_positions k).2.1) d k = d
            rw [hidx, Function.update_same]
          refine ⟨fun g hg => ?_, fun i hi hnz => ?_⟩
          · rw [ih.1 g (by omega)]
            show Function.update s.solution ((_positions k).1 * 9 + (_positions k).2.1) d g
              = s.solution g
            rw [hidx, Function.update_noteq (by omega)]
          · match i with
            | 0 =>
              rw [List.getD_cons_zero] at hnz
              rw [Nat.add_zero, hsolk, hd.2.2]
              rw [List.getD_cons_zero]
            | i' + 1 =>
              rw [List.getD_cons_succ] at hnz ⊢
              rw [show k + (i' + 1) = (k + 1) + i' by omega]
              exact ih.2 i' (by simpa using hi) hnz

theorem seed_chance_not_mem {puzzle : List Char} {k : ℕ} {s : Store}
    (hstate : SeedState puzzle k s) {i : ℕ}
    (hik : i < k) (hkl : k < puzzle.length) (hlen : puzzle.length ≤ 81)
    (hnzi : nzDigit (puzzle.getD i '0'))
    (hchar : puzzle.getD i '0' = puzzle.getD k '0')
    (unitOf : ℕ → ℕ) (fam : ℕ → Finset ℕ)
    (hcount : ∀ u < 9, ∀ e, 1 ≤ e → e ≤ 9 →
      heldCount s.solution (unitCells unitOf u) e = if e ∈ fam u then 0 else 1)
    (hu9 : unitOf k < 9) (hunit : unitOf i = unitOf k) :
    digitVal (puzzle.getD k '0') ∉ fam (unitOf k) := by
  have hnzk : nzDigit (puzzle.getD k '0') := hchar ▸ hnzi
  have hd := digitVal_bounds hnzk
  have hvi : s.solution i = digitVal (puzzle.getD k '0') := by
    rw [hstate.2.1 i hik (by omega), if_pos hnzi, hchar]
  have hmemcell : i ∈ unitCells unitOf (unitOf k) :=
    mem_unitCells.mpr ⟨by omega, hunit⟩
  have hpos : 0 < heldCount s.solution (unitCells unitOf (unitOf k))
      (digitVal (puzzle.getD k '0')) :=
    Finset.card_pos.mpr ⟨i, Finset.mem_filter.mpr ⟨hmemcell, hvi⟩⟩
  have hcnt := hcount (unitOf k) hu9 _ hd.1 hd.2
  intro hmem
  rw [if_pos hmem] at hcnt
  omega

theorem seed_chance_mem {puzzle : List Char} {k : ℕ} {s : Store}
    (hstate : SeedState puzzle k s)
    (hkl : k < puzzle.length) (_hlen : puzzle.length ≤ 81)
    (hnzk : nzDigit (puzzle.getD k '0'))
    (hnoc : ¬∃ i, ConflictAt puzzle i k)
    (unitOf : ℕ → ℕ) (fam : ℕ → Finset ℕ)
    (hcount : ∀ u < 9, ∀ e, 1 ≤ e → e ≤ 9 →
      heldCount s.solution (unitCells unitOf u) e = if e ∈ fam u then 0 else 1)
    (hu9 : unitOf k < 9)
    (hsel : ∀ g, unitOf g = unitOf k →
      (rowOf g = rowOf k ∨ columnOf g = columnOf k ∨ boxOf g = boxOf k)) :
    digitVal (puzzle.getD k '0') ∈ fam (unitOf k) := by
  have hd := digitVal_bounds hnzk
  have hzc : heldCount s.solution (unitCells unitOf (unitOf k))
      (digitVal (puzzle.getD k '0')) = 0 := by
    rw [heldCount, Finset.card_eq_zero, Finset.filter_eq_empty_iff]
    intro g hg
    obtain ⟨hg81, hgu⟩ := mem_unitCells.mp hg
    intro hgd
    by_cases hgk : g < k
    · by_cases hgl : g < puzzle.length
      · rw [hstate.2.1 g hgk hgl] at hgd
        by_cases hnzg : nzDigit (puzzle.getD g '0')
        · rw [if_pos hnzg] at hgd
          have hchar : puzzle.getD g '0' = puzzle.getD k '0' :=
            digitVal_inj hnzg hnzk hgd
          exact hnoc ⟨g, hgk, hkl, hnzg, hnzk, hchar, hsel g hgu⟩
        · rw [if_neg hnzg] at hgd
          omega
      · rw [hstate.2.2 g ?_] at hgd
        · omega
        · omega
    · rw [hstate.2.2 g (by omega)] at hgd
      omega
  have hcnt := hcount (unitOf k) hu9 _ hd.1 hd.2
  by_contra hnot
  rw [if_neg hnot] at hcnt
  omega

/-- Seeding a puzzle that contains a conflict, but whose conflicts all lie
at or beyond the current scan position, ends in a `KeyError` from
`set.remove`. -/
theorem initFieldsGo_conflict (puzzle : List Char)
    (hdig : ∀ c ∈ puzzle, '0' ≤ c ∧ c ≤ '9') (hlen : puzzle.length ≤ 81) :
    ∀ (m k : ℕ) (s : Store), puzzle.length ≤ k + m → k ≤ puzzle.length →
      SeedState puzzle k s →
      (∀ i j, ConflictAt puzzle i j → k ≤ j) →
      HasConflict puzzle →
      initFieldsGo s k (puzzle.drop k) = .error .keyError
  | 0, k, _s, hm, _hk, _hstate, hcf, hconf => by
    obtain ⟨i, j, hc⟩ := hconf
    have h1 : j < puzzle.length := hc.2.1
    have h2 := hcf i j hc
    omega
  | m + 1, k, s, hm, hk, hstate, hcf, hconf => by
    by_cases hkl : k < puzzle.length
    · have hdrop : puzzle.drop k = puzzle[k] :: puzzle.drop (k + 1) :=
        List.drop_eq_getElem_cons hkl
      have hgetD : puzzle[k] = puzzle.getD k '0' :=
        (List.getD_eq_getElem puzzle '0' hkl).symm
      rw [hdrop, hgetD]
      have hdigk : '0' ≤ puzzle.getD k '0' ∧ puzzle.getD k '0' ≤ '9' := by
        rw [← hgetD]
        exact hdig _ (List.getElem_mem hkl)
      have hk81 : k < 81 := by omega
      simp only [initFieldsGo]
      split
      · rename_i hskip
        apply initFieldsGo_conflict puzzle hdig hlen m (k + 1) s (by omega)
          (by omega) ?_ ?_ hconf
        · refine ⟨hstate.1, fun f hf hfl => ?_, fun f hf => hstate.2.2 f (by omega)⟩
          by_cases hfk : f = k
          · subst hfk
            rw [hstate.2.2 f le_rfl, if_neg]
            rcases hskip with h | h <;> rw [h]
            · exact not_nzDigit_dot
            · exact not_nzDigit_zero
          · exact hstate.2.1 f (by omega) hfl
        · intro i j hc
          have hjk := hcf i j hc
          rcases Nat.eq_or_lt_of_le hjk with hjeq | hjlt
          · exfalso
            have := hc.2.2.2.1
            rw [hjeq] at hskip
            rcases hskip with h | h <;> rw [h] at this
            · exact not_nzDigit_dot this
            · exact not_nzDigit_zero this
          · omega
      · rename_i hskip
        have hnzk : nzDigit (puzzle.getD k '0') :=
          nzDigit_of_digit_ne_zero hdigk.1 hdigk.2 hskip
        rw [pyInt_nz hnzk]
        simp only
        have hrow9 := (positions_lt hk81).1
        have hcol9 := (positions_lt hk81).2.1
        have hbox9 := (positions_lt hk81).2.2
        by_cases hnoc : ∃ i, ConflictAt puzzle i k
        · obtain ⟨i, hci⟩ := hnoc
          obtain ⟨hik, -, hnzi, -, hchar, hunit⟩ := hci
          rcases hunit with hu | hu | hu
          · rw [_set_field_error_of_missing (Or.inl
              (seed_chance_not_mem hstate hik hkl hlen hnzi hchar rowOf
                s.row_chances hstate.1.rowCount hrow9 hu))]
          · rw [_set_field_error_of_missing (Or.inr (Or.inl
              (seed_chance_not_mem hstate hik hkl hlen hnzi hchar columnOf
                s.column_chances hstate.1.colCount hcol9 hu)))]
          · rw [_set_field_error_of_missing (Or.inr (Or.inr (Or.inl
              (seed_chance_not_mem hstate hik hkl hlen hnzi hchar boxOf
                s.box_chances hstate.1.boxCount hbox9 hu))))]
        · have hmr := seed_chance_mem hstate hkl hlen hnzk hnoc rowOf
            s.row_chances hstate.1.rowCount hrow9 (fun g hg => Or.inl hg)
          have hmc := seed_chance_mem hstate hkl hlen hnzk hnoc columnOf
            s.column_chances hstate.1.colCount hcol9 (fun g hg => Or.inr (Or.inl hg))
          have hmb := seed_chance_mem hstate hkl hlen hnzk hnoc boxOf
            s.box_chances hstate.1.boxCount hbox9 (fun g hg => Or.inr (Or.inr hg))
          have hunsolved : _positions k ∈ s.unsolved_fields :=
            (hstate.1.unsolvedMem k hk81).mpr (hstate.2.2 k le_rfl)
          rw [_set_field_eq hmr hmc hmb hunsolved]
          have hidx : (_positions k).1 * 9 + (_positions k).2.1 = k :=
            positions_field k
          apply initFieldsGo_conflict puzzle hdig hlen m (k + 1) _ (by omega)
            (by omega) ?_ ?_ hconf
          · refine ⟨Inv_setStore hstate.1 hmr hmc hmb hunsolved,
              fun f hf hfl => ?_, fun f hf => ?_⟩
            · by_cases hfk : f = k
              · subst hfk
                show Function.update s.solution _ _ f = _
                rw [hidx, Function.update_same, if_pos hnzk]
              · show Function.update s.solution _ _ f = _
                rw [hidx, Function.update_noteq hfk]
                exact hstate.2.1 f (by omega) hfl
            · show Function.update s.solution _ _ f = 0
              rw [hidx, Function.update_noteq (by omega)]
              exact hstate.2.2 f (by omega)
          · intro i j hc
            have hjk := hcf i j hc
            rcases Nat.eq_or_lt_of_le hjk with hjeq | hjlt
            · exact absurd ⟨i, hjeq ▸ hc⟩ hnoc
            · omega
    · obtain ⟨i, j, hc⟩ := hconf
      have h1 : j < puzzle.length := hc.2.1
      have h2 := hcf i j hc
      omega

/-! ## Reading the solution string back out -/

theorem toDigits_single {n : ℕ} (h : n ≤ 9) :
    Nat.toDigits 10 n = [Nat.digitChar n] := by
  interval_cases n <;> rfl

theorem flatten_singletons {α β : Type} (g : α → β) :
    ∀ l : List α, (l.map fun a => [g a]).flatten = l.map g
  | [] => rfl
  | a :: rest => by simp [flatten_singletons g rest]

theorem joinedSolution_eq {s : Store} (h : ∀ f, s.solution f ≤ 9) :
    joinedSolution s = (List.range 81).map fun f => Nat.digitChar (s.solution f) := by
  unfold joinedSolution
  rw [show ((List.range 81).map fun f => Nat.toDigits 10 (s.solution f))
      = (List.range 81).map fun f => [Nat.digitChar (s.solution f)] from
    List.map_congr_left fun f _ => toDigits_single (h f)]
  exact flatten_singletons _ _

theorem getD_map_range (g : ℕ → Char) {i : ℕ} (hi : i < 81) (d : Char) :
    ((List.range 81).map g).getD i d = g i := by
  rw [List.getD_eq_getElem?_getD, List.getElem?_map, List.getElem?_range hi]
  rfl

theorem digitChar_inj_le9 :
    ∀ a ≤ 9, ∀ b ≤ 9, (Nat.digitChar a = Nat.digitChar b ↔ a = b) := by decide

theorem digitChar_mem_nz : ∀ v, 1 ≤ v → v ≤ 9 →
    Nat.digitChar v ∈ ['1', '2', '3', '4', '5', '6', '7', '8', '9'] := by decide

theorem digitChar_toNat : ∀ v, 1 ≤ v → v ≤ 9 →
    (Nat.digitChar v).toNat = 48 + v := by decide

theorem digitChar_digitVal {c : Char} (h : nzDigit c) :
    Nat.digitChar (digitVal c) = c := by
  have hb := digitVal_bounds h
  have h1 := digitChar_toNat _ hb.1 hb.2
  apply char_toNat_inj
  rw [h1]
  have h2 := nzDigit_toNat h
  have h48 : '0'.toNat = 48 := rfl
  unfold digitVal
  omega

/-- Decomposition of a normal return of `solve`: seeding succeeded, the
search succeeded, and the output is the joined final solution. -/
theorem solve_ok_decomp {puzzle out : List Char}
    (h : solve puzzle = some (.ok out)) :
    ∃ s s', _init_fields puzzle initialStore = .ok s ∧
      _solve s = some (.ok (true, s')) ∧ out = joinedSolution s' := by
  unfold solve at h
  split at h
  · simp at h
  · rename_i s hinit
    split at h
    · simp at h
    · simp at h
    · simp at h
    · rename_i s' hsolve
      exact ⟨s, s', hinit, hsolve, by simpa using h.symm⟩

/-! ## Exactly-once counting in a completed grid -/

theorem all_counts_one (t : Finset ℕ) (g : ℕ → ℕ)
    (hle : ∀ x ∈ t, g x ≤ 1) (hsum : ∑ x in t, g x = t.card) :
    ∀ x ∈ t, g x = 1 := by
  intro x hx
  by_contra hne
  have hx0 : g x = 0 := by
    have := hle x hx
    omega
  have hlt : ∑ y in t, g y < ∑ y in t, 1 :=
    Finset.sum_lt_sum hle ⟨x, hx, by omega⟩
  rw [Finset.sum_const, smul_eq_mul, mul_one] at hlt
  omega

theorem count_one_of_complete {sol : ℕ → ℕ} (unitOf : ℕ → ℕ) {u : ℕ}
    (hcard : (unitCells unitOf u).card = 9)
    (hval : ∀ f ∈ unitCells unitOf u, sol f ∈ Finset.Icc 1 9)
    (hle : ∀ e, 1 ≤ e → e ≤ 9 → heldCount sol (unitCells unitOf u) e ≤ 1) :
    ∀ e, 1 ≤ e → e ≤ 9 → heldCount sol (unitCells unitOf u) e = 1 := by
  have hfib := Finset.card_eq_sum_card_fiberwise hval
  intro e he1 he9
  refine all_counts_one (Finset.Icc 1 9)
    (fun e => heldCount sol (unitCells unitOf u) e) ?_ ?_ e ?_
  · intro x hx
    rw [Finset.mem_Icc] at hx
    exact hle x hx.1 hx.2
  · calc ∑ x in Finset.Icc 1 9, heldCount sol (unitCells unitOf u) x
        = (unitCells unitOf u).card := hfib.symm
      _ = 9 := hcard
      _ = (Finset.Icc 1 9).card := by simp
  · exact Finset.mem_Icc.mpr ⟨he1, he9⟩

theorem unitCards : ∀ u < 9, (unitCells rowOf u).card = 9 ∧
    (unitCells columnOf u).card = 9 ∧ (unitCells boxOf u).card = 9 := by decide

/-- In an invariant store with nothing unsolved, every unit holds every
digit `1..9` exactly once. -/
theorem complete_counts {s : Store} (hs : Inv s)
    (hempty : s.unsolved_fields = ∅) :
    ∀ u < 9, ∀ e, 1 ≤ e → e ≤ 9 →
      heldCount s.solution (cellsOfRow u) e = 1 ∧
      heldCount s.solution (cellsOfColumn u) e = 1 ∧
      heldCount s.solution (cellsOfBox u) e = 1 := by
  have hval : ∀ f, f < 81 → s.solution f ∈ Finset.Icc 1 9 := by
    intro f hf
    have h1 := (hs.unsolvedMem f hf)
    rw [hempty] at h1
    simp only [Finset.not_mem_empty, false_iff] at h1
    have h2 := hs.solRange f
    exact Finset.mem_Icc.mpr ⟨by omega, h2⟩
  intro u hu e he1 he9
  obtain ⟨hcr, hcc, hcb⟩ := unitCards u hu
  refine ⟨?_, ?_, ?_⟩
  · refine count_one_of_complete rowOf hcr
      (fun f hf => hval f (mem_unitCells.mp hf).1) ?_ e he1 he9
    intro x hx1 hx9
    show heldCount s.solution (cellsOfRow u) x ≤ 1
    rw [hs.rowCount u hu x hx1 hx9]
    split <;> omega
  · refine count_one_of_complete columnOf hcc
      (fun f hf => hval f (mem_unitCells.mp hf).1) ?_ e he1 he9
    intro x hx1 hx9
    show heldCount s.solution (cellsOfColumn u) x ≤ 1
    rw [hs.colCount u hu x hx1 hx9]
    split <;> omega
  · refine count_one_of_complete boxOf hcb
      (fun f hf => hval f (mem_unitCells.mp hf).1) ?_ e he1 he9
    intro x hx1 hx9
    show heldCount s.solution (cellsOfBox u) x ≤ 1
    rw [hs.boxCount u hu x hx1 hx9]
    split <;> omega

theorem Reachable_Inv {s : Store} (h : Reachable s) : Inv s := by
  induction h with
  | init => exact Inv_initialStore
  | place _hr hset ih =>
    obtain ⟨m1, m2, m3, m4, rfl⟩ := _set_field_ok_inv hset
    exact Inv_setStore ih m1 m2 m3 m4
  | unplace _hr hf hheld hd ih =>
    exact Inv_reset ih hf hheld (by omega)

theorem filter_char_eq {s' : Store} (hle9 : ∀ f, s'.solution f ≤ 9)
    (cells : Finset ℕ) (hcells : ∀ f ∈ cells, f < 81) {e : ℕ} (he9 : e ≤ 9) :
    (cells.filter fun f =>
        ((List.range 81).map fun g => Nat.digitChar (s'.solution g)).getD f ' '
          = Nat.digitChar e).card
      = heldCount s'.solution cells e := by
  unfold heldCount
  congr 1
  apply Finset.filter_congr
  intro f hf
  rw [getD_map_range _ (hcells f hf)]
  exact digitChar_inj_le9 _ (hle9 f) _ he9

/-! ## The claims -/

/-- C1: for every 81-character decimal-digit input string on which `solve`
returns normally, the returned string has 81 characters, all of them
digits `1..9`, and in the returned grid every row, every column and every
3×3 box contains each digit `1..9` exactly once. -/
theorem solve_output_valid (puzzle out : List Char)
    (_hlen : puzzle.length = 81)
    (_hdig : ∀ c ∈ puzzle, '0' ≤ c ∧ c ≤ '9')
    (hok : solve puzzle = some (.ok out)) :
    out.length = 81 ∧
    (∀ c ∈ out, c ∈ ['1', '2', '3', '4', '5', '6', '7', '8', '9']) ∧
    (∀ u < 9, ∀ e, 1 ≤ e → e ≤ 9 →
      ((cellsOfRow u).filter fun f => out.getD f ' ' = Nat.digitChar e).card = 1 ∧
      ((cellsOfColumn u).filter fun f => out.getD f ' ' = Nat.digitChar e).card = 1 ∧
      ((cellsOfBox u).filter fun f => out.getD f ' ' = Nat.digitChar e).card = 1) := by
  obtain ⟨s0, s', hinit, hsolve, rfl⟩ := solve_ok_decomp hok
  have hInv0 : Inv s0 :=
    initFieldsGo_Inv puzzle initialStore 0 s0 Inv_initialStore hinit
  obtain ⟨hI', hE', _hA'⟩ := (solveF_spec _ s0 hInv0 _ hsolve).2.1 s' rfl
  have hle9 := hI'.solRange
  have hout := joinedSolution_eq hle9
  have hnz : ∀ f, f < 81 → 1 ≤ s'.solution f := by
    intro f hf
    have h1 := hI'.unsolvedMem f hf
    rw [hE'] at h1
    simp only [Finset.not_mem_empty, false_iff] at h1
    omega
  refine ⟨by rw [hout]; simp, ?_, ?_⟩
  · rw [hout]
    intro c hc
    simp only [List.mem_map, List.mem_range] at hc
    obtain ⟨f, hf, rfl⟩ := hc
    exact digitChar_mem_nz _ (hnz f hf) (hle9 f)
  · intro u hu e he1 he9
    obtain ⟨h1, h2, h3⟩ := complete_counts hI' hE' u hu e he1 he9
    rw [hout]
    refine ⟨?_, ?_, ?_⟩
    · rw [filter_char_eq hle9 (cellsOfRow u) (fun f hf => (mem_unitCells.mp hf).1) he9]
      exact h1
    · rw [filter_char_eq hle9 (cellsOfColumn u)
        (fun f hf => (mem_unitCells.mp hf).1) he9]
      exact h2
    · rw [filter_char_eq hle9 (cellsOfBox u)
        (fun f hf => (mem_unitCells.mp hf).1) he9]
      exact h3

set_option maxRecDepth 400000 in
set_option maxHeartbeats 4000000 in
/-- Witness for C1 at the near-solved puzzle. -/
theorem solve_output_valid_witness :
    nearSolvedPuzzle.length = 81 ∧
    (∀ c ∈ nearSolvedPuzzle, '0' ≤ c ∧ c ≤ '9') ∧
    solve nearSolvedPuzzle = some (.ok classicSolution) ∧
    (classicSolution.length = 81 ∧
      (∀ c ∈ classicSolution, c ∈ ['1', '2', '3', '4', '5', '6', '7', '8', '9']) ∧
      (∀ u < 9, ∀ e, 1 ≤ e → e ≤ 9 →
        ((cellsOfRow u).filter fun f =>
            classicSolution.getD f ' ' = Nat.digitChar e).card = 1 ∧
        ((cellsOfColumn u).filter fun f =>
            classicSolution.getD f ' ' = Nat.digitChar e).card = 1 ∧
        ((cellsOfBox u).filter fun f =>
            classicSolution.getD f ' ' = Nat.digitChar e).card = 1)) := by
  have hlen : nearSolvedPuzzle.length = 81 := by rfl
  have hdig : ∀ c ∈ nearSolvedPuzzle, '0' ≤ c ∧ c ≤ '9' := by decide
  have hsolve : solve nearSolvedPuzzle = some (.ok classicSolution) := by rfl
  exact ⟨hlen, hdig, hsolve, solve_output_valid _ _ hlen hdig hsolve⟩

/-- C2: for every input (of the modelled lengths, at most 81 characters —
longer inputs with a given beyond cell 80 raise `IndexError` in Python and
never return normally) on which `solve` returns normally, every input
position holding a non-zero digit is returned unchanged in the output. -/
theorem solve_preserves_givens (puzzle out : List Char)
    (_hlen : puzzle.length ≤ 81)
    (hok : solve puzzle = some (.ok out)) :
    ∀ i, i < puzzle.length → nzDigit (puzzle.getD i '0') →
      out.getD i '0' = puzzle.getD i '0' := by
  obtain ⟨s0, s', hinit, hsolve, rfl⟩ := solve_ok_decomp hok
  have hInv0 : Inv s0 :=
    initFieldsGo_Inv puzzle initialStore 0 s0 Inv_initialStore hinit
  obtain ⟨hI', _hE', hA'⟩ := (solveF_spec _ s0 hInv0 _ hsolve).2.1 s' rfl
  intro i hi hnz
  have hval := (initFieldsGo_values puzzle 0 initialStore s0 hinit).2 i hi hnz
  rw [Nat.zero_add] at hval
  have hd := digitVal_bounds hnz
  have hne : s0.solution i ≠ 0 := by
    rw [hval]
    omega
  have hs'i : s'.solution i = digitVal (puzzle.getD i '0') := by
    rw [hA' i hne, hval]
  rw [joinedSolution_eq hI'.solRange, getD_map_range _ (by omega), hs'i,
    digitChar_digitVal hnz]

set_option maxRecDepth 400000 in
set_option maxHeartbeats 4000000 in
/-- Witness for C2 at the near-solved puzzle. -/
theorem solve_preserves_givens_witness :
    nearSolvedPuzzle.length ≤ 81 ∧
    solve nearSolvedPuzzle = some (.ok classicSolution) ∧
    (∀ i, i < nearSolvedPuzzle.length → nzDigit (nearSolvedPuzzle.getD i '0') →
      classicSolution.getD i '0' = nearSolvedPuzzle.getD i '0') := by
  have hlen : nearSolvedPuzzle.length ≤ 81 := by decide
  have hsolve : solve nearSolvedPuzzle = some (.ok classicSolution) := by rfl
  exact ⟨hlen, hsolve, solve_preserves_givens _ _ hlen hsolve⟩

set_option maxRecDepth 200000 in
set_option maxHeartbeats 2000000 in
/-- C3 (code bug): the claim, backed by the spec, requires the all-zero
puzzle to solve to some valid grid.  Instead the code crashes: every
unsolved cell has exactly 9 candidates, `least_candidates_so_far` starts
at `9` and is only beaten by a strictly smaller count, so
`_choose_next_unsolved` returns `None` and the unpacking
`positions, candidates = ...` in `_solve` raises `TypeError`. -/
theorem solve_allZero_typeError :
    solve (List.replicate 81 '0') = some (.error .typeError) := by rfl

set_option maxRecDepth 200000 in
set_option maxHeartbeats 2000000 in
/-- C4 counterexample: on a puzzle with two `5`s in row 0, `solve` fails
with the low-level `KeyError` raised by `set.remove` inside `_set_field`
during seeding — there is no dedicated conflicting-givens domain error in
the code. -/
theorem conflict_raises_keyError_cex :
    solve conflictPuzzle = some (.error .keyError) ∧
    ∀ e : PyErr, solve conflictPuzzle = some (.error e) → e = .keyError := by
  have h : solve conflictPuzzle = some (.error .keyError) := by rfl
  refine ⟨h, fun e he => ?_⟩
  rw [h] at he
  simpa using he.symm

/-- C4 amended: for every 81-character digit input whose non-zero givens
place the same digit twice in one row, column or box, `solve` fails during
seeding, before any search step, with the `KeyError` of `set.remove` (not
with a dedicated domain error, which the code does not have). -/
theorem conflict_raises_keyError (puzzle : List Char)
    (hlen : puzzle.length = 81)
    (hdig : ∀ c ∈ puzzle, '0' ≤ c ∧ c ≤ '9')
    (hconf : HasConflict puzzle) :
    solve puzzle = some (.error .keyError) := by
  have hfail : initFieldsGo initialStore 0 (puzzle.drop 0) = .error .keyError :=
    initFieldsGo_conflict puzzle hdig (by omega) puzzle.length 0 initialStore
      (by omega) (by omega)
      ⟨Inv_initialStore, fun f hf _ => absurd hf (by omega), fun f _ => rfl⟩
      (fun _ j _ => Nat.zero_le j) hconf
  rw [List.drop_zero] at hfail
  unfold solve _init_fields
  rw [hfail]

set_option maxRecDepth 200000 in
set_option maxHeartbeats 2000000 in
/-- Witness for the amended C4 at the two-fives puzzle. -/
theorem conflict_raises_keyError_witness :
    conflictPuzzle.length = 81 ∧
    (∀ c ∈ conflictPuzzle, '0' ≤ c ∧ c ≤ '9') ∧
    HasConflict conflictPuzzle ∧
    solve conflictPuzzle = some (.error .keyError) := by
  have hlen : conflictPuzzle.length = 81 := by decide
  have hdig : ∀ c ∈ conflictPuzzle, '0' ≤ c ∧ c ≤ '9' := by decide
  have hconf : HasConflict conflictPuzzle := ⟨0, 1, by decide⟩
  exact ⟨hlen, hdig, hconf, conflict_raises_keyError _ hlen hdig hconf⟩

set_option maxRecDepth 400000 in
set_option maxHeartbeats 4000000 in
/-- C5 counterexample: an 81-character input containing `'.'` — a
character outside `'0'..'9'`, hence malformed in the claim's sense — on
which `solve` nevertheless returns normally: `solve` performs no input
validation (`_verify_grid` is only called by the parser). -/
theorem solve_accepts_malformed_cex :
    ('.' ∈ dottedPuzzle ∧ '.' ∉ "0123456789".toList) ∧
    solve dottedPuzzle = some (.ok classicSolution) := by
  exact ⟨by decide, by rfl⟩

theorem verifyLoop_spec :
    ∀ g : List Char,
      ((∃ c ∈ g, c ∉ "0123456789".toList) → verifyLoop g = .error .valueError) ∧
      ((∀ c ∈ g, c ∈ "0123456789".toList) → verifyLoop g = .ok ())
  | [] => ⟨fun h => by simp at h, fun _ => rfl⟩
  | c :: rest => by
    constructor
    · rintro ⟨x, hx, hnx⟩
      simp only [verifyLoop]
      by_cases hc : c ∈ "0123456789".toList
      · rw [if_pos hc]
        apply (verifyLoop_spec rest).1
        rcases List.mem_cons.mp hx with rfl | hx'
        · exact absurd hc hnx
        · exact ⟨x, hx', hnx⟩
      · rw [if_neg hc]
    · intro hall
      simp only [verifyLoop]
      rw [if_pos (hall c (List.mem_cons_self _ _))]
      exact (verifyLoop_spec rest).2 fun x hx => hall x (List.mem_cons_of_mem _ hx)

/-- C5 amended: `solve` itself performs no syntactic validation; the
validation that exists, `_verify_grid` (called by `parse_input` and
`Sudoku.__init__`, not by `solve`), raises `ValueError` on any character
outside `'0'..'9'` and performs no length check, returning any all-digit
string of any length unchanged. -/
theorem verify_grid_spec (g : List Char) :
    ((∃ c ∈ g, c ∉ "0123456789".toList) → _verify_grid g = .error .valueError) ∧
    ((∀ c ∈ g, c ∈ "0123456789".toList) → _verify_grid g = .ok g) := by
  constructor
  · intro h
    unfold _verify_grid
    rw [(verifyLoop_spec g).1 h]
  · intro h
    unfold _verify_grid
    rw [(verifyLoop_spec g).2 h]

/-- Witness for the amended C5: a non-digit character is rejected with
`ValueError`; an all-digit string of length 2 (not 81) passes unchanged. -/
theorem verify_grid_spec_witness :
    ('x' ∈ ['x'] ∧ 'x' ∉ "0123456789".toList) ∧
    _verify_grid ['x'] = .error .valueError ∧
    _verify_grid ['0', '7'] = .ok ['0', '7'] :=
  ⟨by decide, (verify_grid_spec ['x']).1 ⟨'x', by decide, by decide⟩,
    (verify_grid_spec ['0', '7']).2 (by decide)⟩

/-- C6 counterexample: in `staleStore`, the placement `((0,0,0), 1)` is
legal in the claim's sense (digit in all three candidate sets, position in
the unsolved set), but place-then-unplace resets the grid cell to `0`
while its prior value was `5`: the store is not restored. -/
theorem place_unplace_cex :
    (1 ∈ staleStore.row_chances 0 ∧ 1 ∈ staleStore.column_chances 0 ∧
      1 ∈ staleStore.box_chances 0 ∧
      ((0, 0, 0) : Pos) ∈ staleStore.unsolved_fields) ∧
    staleStore.solution 0 = 5 ∧
    (_set_field staleStore (0, 0, 0) 1).map
        (fun s1 => (_reset_field s1 (0, 0, 0) 1).solution 0) = .ok 0 ∧
    (0 : ℕ) ≠ 5 :=
  ⟨by decide, by rfl, by rfl, by decide⟩

/-- C6 amended: place-then-unplace with the same legal `(p, d)` restores
the store exactly, additionally assuming the placed cell held `0` before —
which every store satisfying the data-model invariant (every reachable
store) does. -/
theorem place_unplace_roundtrip (s : Store) (p : Pos) (d : ℕ)
    (h1 : d ∈ s.row_chances p.1) (h2 : d ∈ s.column_chances p.2.1)
    (h3 : d ∈ s.box_chances p.2.2) (h4 : p ∈ s.unsolved_fields)
    (h5 : s.solution (p.1 * 9 + p.2.1) = 0) :
    ∃ s1, _set_field s p d = .ok s1 ∧ _reset_field s1 p d = s :=
  ⟨setStore s p d, _set_field_eq h1 h2 h3 h4,
    _reset_field_setStore h1 h2 h3 h4 h5⟩

/-- Witness for the amended C6 at the fresh store. -/
theorem place_unplace_roundtrip_witness :
    (1 ∈ initialStore.row_chances 0 ∧ 1 ∈ initialStore.column_chances 0 ∧
      1 ∈ initialStore.box_chances 0 ∧
      ((0, 0, 0) : Pos) ∈ initialStore.unsolved_fields ∧
      initialStore.solution 0 = 0) ∧
    ∃ s1, _set_field initialStore (0, 0, 0) 1 = .ok s1 ∧
      _reset_field s1 (0, 0, 0) 1 = initialStore := by
  have h1 : 1 ∈ initialStore.row_chances 0 := by decide
  have h2 : 1 ∈ initialStore.column_chances 0 := by decide
  have h3 : 1 ∈ initialStore.box_chances 0 := by decide
  have h4 : ((0, 0, 0) : Pos) ∈ initialStore.unsolved_fields := by decide
  have h5 : initialStore.solution (0 * 9 + 0) = 0 := by rfl
  exact ⟨⟨h1, h2, h3, h4, rfl⟩,
    place_unplace_roundtrip initialStore (0, 0, 0) 1 h1 h2 h3 h4 h5⟩

/-- C7: in every store reachable from the freshly initialised store by
place and unplace operations (unplace being used, as specified, only to
undo a place of the same position and digit), a digit is absent from a
unit's candidate set iff some cell of that unit currently holds it. -/
theorem chance_absent_iff_held {s : Store} (hr : Reachable s) :
    ∀ u < 9, ∀ d, 1 ≤ d → d ≤ 9 →
      ((d ∉ s.row_chances u ↔ ∃ f ∈ cellsOfRow u, s.solution f = d) ∧
       (d ∉ s.column_chances u ↔ ∃ f ∈ cellsOfColumn u, s.solution f = d) ∧
       (d ∉ s.box_chances u ↔ ∃ f ∈ cellsOfBox u, s.solution f = d)) := by
  have hs := Reachable_Inv hr
  intro u hu d h1 h9
  have key : ∀ (cells S : Finset ℕ),
      heldCount s.solution cells d = (if d ∈ S then 0 else 1) →
      (d ∉ S ↔ ∃ f ∈ cells, s.solution f = d) := by
    intro cells S hcnt
    constructor
    · intro hnot
      rw [if_neg hnot] at hcnt
      have hpos : 0 < (cells.filter fun f => s.solution f = d).card := by
        unfold heldCount at hcnt
        omega
      obtain ⟨f, hf⟩ := Finset.card_pos.mp hpos
      obtain ⟨hf1, hf2⟩ := Finset.mem_filter.mp hf
      exact ⟨f, hf1, hf2⟩
    · rintro ⟨f, hf, hd⟩ hmem
      rw [if_pos hmem] at hcnt
      have : 0 < heldCount s.solution cells d :=
        Finset.card_pos.mpr ⟨f, Finset.mem_filter.mpr ⟨hf, hd⟩⟩
      omega
  exact ⟨key _ _ (hs.rowCount u hu d h1 h9), key _ _ (hs.colCount u hu d h1 h9),
    key _ _ (hs.boxCount u hu d h1 h9)⟩

/-- Witness for C7 at the freshly initialised store. -/
theorem chance_absent_iff_held_witness :
    Reachable initialStore ∧
    ∀ u < 9, ∀ d, 1 ≤ d → d ≤ 9 →
      ((d ∉ initialStore.row_chances u ↔
          ∃ f ∈ cellsOfRow u, initialStore.solution f = d) ∧
       (d ∉ initialStore.column_chances u ↔
          ∃ f ∈ cellsOfColumn u, initialStore.solution f = d) ∧
       (d ∉ initialStore.box_chances u ↔
          ∃ f ∈ cellsOfBox u, initialStore.solution f = d)) :=
  ⟨Reachable.init, chance_absent_iff_held Reachable.init⟩

/-- C8: whenever a call to the recursive search (at any fuel, i.e. any
recursion depth) returns `false` from a store satisfying the consistency
invariant — as every store arising in a run of `solve` does — the returned
store is exactly the entry store: no placement of the failed frame or its
subtree remains in effect. -/
theorem search_false_frame {s s' : Store} {fuel : ℕ} (hs : Inv s)
    (h : _solveF fuel s = some (.ok (false, s'))) : s' = s :=
  (solveF_spec fuel s hs _ h).1 s' rfl

set_option maxRecDepth 400000 in
set_option maxHeartbeats 4000000 in
/-- Witness for C8: seeding the dead-end puzzle yields an invariant store
on which the search returns `false` with the store unchanged. -/
theorem search_false_frame_witness :
    Inv seededDeadEnd ∧
    _solveF 82 seededDeadEnd = some (.ok (false, seededDeadEnd)) ∧
    seededDeadEnd = seededDeadEnd := by
  have hinit : initFieldsGo initialStore 0 deadEndPuzzle = .ok seededDeadEnd := by
    rfl
  have hInv : Inv seededDeadEnd :=
    initFieldsGo_Inv deadEndPuzzle initialStore 0 seededDeadEnd
      Inv_initialStore hinit
  have hrun : _solveF 82 seededDeadEnd = some (.ok (false, seededDeadEnd)) := by
    rfl
  exact ⟨hInv, hrun, search_false_frame hInv hrun⟩

set_option maxRecDepth 200000 in
set_option maxHeartbeats 2000000 in
/-- C9 (code bug): on the freshly initialised store the unsolved set is
non-empty, every unsolved cell has exactly 9 candidates, and the claim
(and spec) require `_choose_next_unsolved` to return a cell of minimal
candidate count; instead it returns `None`, because
`least_candidates_so_far` starts at `9` and is only updated by a strictly
smaller count — `_solve` then crashes unpacking the `None`. -/
theorem choose_next_unsolved_none :
    initialStore.unsolved_fields.Nonempty ∧
    _choose_next_unsolved initialStore = none :=
  ⟨⟨(0, 0, 0), by decide⟩, by rfl⟩

/-- C10: from any store satisfying the consistency invariant (any store a
run of `solve` produces), the unsolved set has at most 81 cells, and the
search terminates within recursion depth bounded by the unsolved count:
any fuel beyond 81 — in particular the `unsolved + 1` used by `_solve` —
is never exhausted. -/
theorem search_terminates {s : Store} (hs : Inv s) :
    s.unsolved_fields.card ≤ 81 ∧
    (∀ fuel, 81 < fuel → _solveF fuel s ≠ none) ∧
    _solve s ≠ none := by
  have hcard : s.unsolved_fields.card ≤ 81 := by
    have h1 := Finset.card_le_card hs.unsolvedSub
    have h2 : _all_unsolved.card ≤ 81 := by
      unfold _all_unsolved
      exact Finset.card_image_le.trans (by simp)
    omega
  exact ⟨hcard, fun fuel hf => solveF_ne_none fuel s (by omega),
    solveF_ne_none _ s (by omega)⟩

/-- Witness for C10 at the freshly initialised store. -/
theorem search_terminates_witness :
    Inv initialStore ∧
    (initialStore.unsolved_fields.card ≤ 81 ∧
      (∀ fuel, 81 < fuel → _solveF fuel initialStore ≠ none) ∧
      _solve initialStore ≠ none) :=
  ⟨Inv_initialStore, search_terminates Inv_initialStore⟩

end SudokuPy

